import Mathlib

/-!
Verification development for the LocalLens core (src/tauri-app/src-tauri):
a shallow embedding of the vector codec, text segmenter, vector cache,
two-tier search and ingestion pipeline, with theorems about the documented
properties.

Modelling conventions:
* Rust `f32` components appear in the codec as their 32-bit little-endian
  bit patterns (naturals below 2^32); `f32::to_le_bytes` / `from_le_bytes`
  are exact mutually inverse maps between a float and its bit pattern, so
  the byte codec is represented faithfully at the bit level.
* Text is `List Char`; Rust `str::len` (UTF-8 byte count) is `utf8Len`,
  `str::trim` is `trimChars`, `str::split` on a two-character separator is
  `splitOn2`.
* Vector components elsewhere (scoring, cache) are exact rationals, the
  standard exact abstraction of the float arithmetic; ordering and
  cardinality facts about the search pipeline do not depend on rounding.
* SQLite is modelled by in-memory tables; `LIKE` follows SQLite's default
  semantics (ASCII-case-insensitive, `%`/`_` wildcards), and
  `length(content)` is the character count, as SQLite defines for text.
-/

namespace LocalLens

-- ═══════════════════ Vector codec (embedding.rs 149-158) ═══════════════════

/-- The four little-endian bytes of one `f32` component, at the level of its
32-bit pattern (Rust `f32::to_le_bytes`). -/
def f32ToLeBytes (bits : Nat) : List Nat :=
  [bits % 256, bits / 256 % 256, bits / 65536 % 256, bits / 16777216 % 256]

/-- Rust `f32::from_le_bytes` on four bytes, at the bit-pattern level. -/
def f32FromLeBytes (b0 b1 b2 b3 : Nat) : Nat :=
  b0 + 256 * b1 + 65536 * b2 + 16777216 * b3

/-- `embedding.rs` `vec_to_bytes`: flat little-endian encoding of a vector. -/
def vec_to_bytes (v : List Nat) : List Nat :=
  v.flatMap f32ToLeBytes

/-- `embedding.rs` `bytes_to_vec`: `chunks_exact(4)` + `from_le_bytes`.
`chunks_exact` silently drops a trailing remainder shorter than 4 bytes. -/
def bytes_to_vec : List Nat → List Nat
  | b0 :: b1 :: b2 :: b3 :: rest => f32FromLeBytes b0 b1 b2 b3 :: bytes_to_vec rest
  | _ => []

theorem f32_roundtrip (x : Nat) (h : x < 4294967296) :
    f32FromLeBytes (x % 256) (x / 256 % 256) (x / 65536 % 256) (x / 16777216 % 256) = x := by
  unfold f32FromLeBytes
  omega

-- ═══════════════════ Text model (Rust str primitives) ══════════════════════

/-- Rust `char::is_whitespace`: the Unicode `White_Space` property. -/
def isWs (c : Char) : Bool :=
  decide (c.toNat = 32 ∨ c.toNat = 9 ∨ c.toNat = 10 ∨ c.toNat = 13 ∨
    c.toNat = 11 ∨ c.toNat = 12 ∨ c.toNat = 133 ∨ c.toNat = 160 ∨
    c.toNat = 5760 ∨ (8192 ≤ c.toNat ∧ c.toNat ≤ 8202) ∨ c.toNat = 8232 ∨
    c.toNat = 8233 ∨ c.toNat = 8239 ∨ c.toNat = 8287 ∨ c.toNat = 12288)

/-- Rust `str::trim`: strip leading and trailing whitespace. -/
def trimChars (s : List Char) : List Char :=
  ((s.dropWhile isWs).reverse.dropWhile isWs).reverse

/-- Rust `str::split` on the two-character separator `[a, b]`: leftmost
non-overlapping occurrences, empty parts kept (so `""` splits to `[""]`). -/
def splitOn2 (a b : Char) : List Char → List (List Char)
  | [] => [[]]
  | [c] => [[c]]
  | c :: d :: rest =>
    if c = a ∧ d = b then [] :: splitOn2 a b rest
    else
      match splitOn2 a b (d :: rest) with
      | [] => [[c]]
      | p :: ps => (c :: p) :: ps

/-- Rust `String::len` / `str::len`: UTF-8 byte count. -/
def utf8Len (s : List Char) : Nat :=
  (s.map Char.utf8Size).sum

-- ═══════════════════ Segmenter (lib.rs segment_text, 153-188) ══════════════

/-- `MAX` in `segment_text`. -/
def SEG_MAX : Nat := 500

/-- `MIN` in `segment_text`. -/
def SEG_MIN : Nat := 30

/-- One iteration of the sentence loop of `segment_text` (lib.rs 166-181);
the state is the pair (chunks pushed so far, current buffer). -/
def sentStep (st : List (List Char) × List Char) (sent0 : List Char) :
    List (List Char) × List Char :=
  let sent := trimChars sent0
  if sent = [] then st
  else
    let fl :=
      if st.2 ≠ [] ∧ utf8Len st.2 + utf8Len sent + 2 > SEG_MAX then
        ((if SEG_MIN ≤ utf8Len st.2 then st.1 ++ [trimChars st.2] else st.1),
         ([] : List Char))
      else st
    (fl.1, if fl.2 = [] then sent else fl.2 ++ '.' :: ' ' :: sent)

/-- Processing of one paragraph in `segment_text` (lib.rs 157-186). -/
def paraStep (chunks : List (List Char)) (para0 : List Char) :
    List (List Char) :=
  let para := trimChars para0
  if utf8Len para < SEG_MIN then chunks
  else if utf8Len para ≤ SEG_MAX then chunks ++ [para]
  else
    let st := (splitOn2 '.' ' ' para).foldl sentStep (chunks, [])
    if SEG_MIN ≤ utf8Len st.2 then st.1 ++ [trimChars st.2] else st.1

/-- `lib.rs` `segment_text`: split on blank lines, then bound passage sizes. -/
def segment_text (text : List Char) : List (List Char) :=
  (splitOn2 '\n' '\n' text).foldl paraStep []

-- ═══════════════════ Persistent store model (schema, lib.rs 108-132) ═══════

/-- A row of the `files` table: id, path (UNIQUE), name, imported_at. -/
structure FileRow where
  id : Int
  path : List Char
  name : List Char
  imported_at : Nat
deriving DecidableEq

/-- A row of the `chunks` table. -/
structure ChunkRow where
  id : Int
  file_id : Int
  content : List Char
  chunk_index : Int
deriving DecidableEq

/-- The three tables; embedding BLOBs appear post-codec as rational vectors
(the byte codec is verified separately). -/
structure DB where
  files : List FileRow
  chunks : List ChunkRow
  chunk_embeddings : List (Int × List Rat)
deriving DecidableEq

/-- `lib.rs` `SearchResult`. -/
structure SearchResult where
  content : List Char
  file_name : List Char
  file_path : List Char
  chunk_index : Int
  score : Rat
  is_semantic : Bool
deriving DecidableEq

-- ═══════════════════ SQLite LIKE (default, no ESCAPE) ══════════════════════

/-- SQLite's LIKE case folding: ASCII A-Z fold to lowercase, every other
character compares exactly. -/
def foldAscii (c : Char) : Char :=
  if 65 ≤ c.toNat ∧ c.toNat ≤ 90 then Char.ofNat (c.toNat + 32) else c

/-- SQLite LIKE matching: `%` matches any character sequence, `_` any one
character, any other pattern character one ASCII-case-folded-equal
character.  SQLite's default LIKE is case-insensitive for ASCII letters. -/
def likeMatch : List Char → List Char → Bool
  | [], s => s.isEmpty
  | '%' :: p, s => s.tails.any (fun t => likeMatch p t)
  | '_' :: p, s =>
    (match s with
     | [] => false
     | _ :: s2 => likeMatch p s2)
  | c :: p, s =>
    (match s with
     | [] => false
     | k :: s2 => foldAscii c == foldAscii k && likeMatch p s2)

/-- The pattern `%query.trim()%` built by `keyword_search` (lib.rs 499). -/
def likePattern (query : List Char) : List Char :=
  '%' :: (trimChars query ++ ['%'])

-- ═══════════════════ Keyword fallback search (lib.rs 497-526) ══════════════

/-- The `JOIN files f ON c.file_id = f.id` step for one chunk row. -/
def joinFile (db : DB) (c : ChunkRow) : Option (ChunkRow × FileRow) :=
  (db.files.find? (fun f => f.id == c.file_id)).map (fun f => (c, f))

/-- The joined rows whose content matches the LIKE pattern. -/
def kwMatches (db : DB) (query : List Char) : List (ChunkRow × FileRow) :=
  (db.chunks.filterMap (joinFile db)).filter
    (fun r => likeMatch (likePattern query) r.1.content)

/-- Packaging of one joined row into a keyword `SearchResult`. -/
def kwResult (r : ChunkRow × FileRow) : SearchResult :=
  { content := r.1.content, file_name := r.2.name, file_path := r.2.path,
    chunk_index := r.1.chunk_index, score := 0, is_semantic := false }

/-- The `ORDER BY length(content) ASC` comparison (character count). -/
def kwLe (r1 r2 : ChunkRow × FileRow) : Prop :=
  r1.1.content.length ≤ r2.1.content.length

instance : DecidableRel kwLe :=
  fun a b => Nat.decLe a.1.content.length b.1.content.length

instance : IsTotal (ChunkRow × FileRow) kwLe :=
  ⟨fun a b => Nat.le_total a.1.content.length b.1.content.length⟩

instance : IsTrans (ChunkRow × FileRow) kwLe :=
  ⟨fun _ _ _ => Nat.le_trans⟩

/-- `lib.rs` `keyword_search`: LIKE scan, `ORDER BY length(content) ASC`
(SQLite `length` counts characters; a stable sort models SQLite's
arbitrary-but-deterministic tie order), `LIMIT 30`, score 0, keyword
flag. -/
def keyword_search (db : DB) (query : List Char) : List SearchResult :=
  ((List.insertionSort kwLe (kwMatches db query)).take 30).map kwResult

-- ═══════════════════ Vector cache (lib.rs 46-64, 465-494) ══════════════════

/-- `lib.rs` `VectorCache`: (chunk id, vector) entries plus a validity flag. -/
structure VectorCache where
  entries : List (Int × List Rat)
  valid : Bool
deriving DecidableEq

/-- `VectorCache::invalidate`: clear the flag and the entries. -/
def VectorCache.invalidate (_c : VectorCache) : VectorCache :=
  { entries := [], valid := false }

/-- `lib.rs` `ensure_cache_valid`: fast path when valid, otherwise reload
every persisted `(chunk_id, embedding)` row and mark valid. -/
def ensure_cache_valid (db : DB) (c : VectorCache) : VectorCache :=
  if c.valid then c else { entries := db.chunk_embeddings, valid := true }

-- ═══════════════════ Semantic search (embedding.rs 144-146, lib.rs 400-462) ═

/-- `embedding.rs` `cosine_sim`: plain dot product (`zip` truncates to the
shorter vector, as Rust's does). -/
def cosine_sim (a b : List Rat) : Rat :=
  ((a.zip b).map (fun p => p.1 * p.2)).sum

/-- Chunk content lookup of `semantic_search` step 4: the row of `chunks`
with the given id, joined to its file row. -/
def lookupChunk (db : DB) (cid : Int) : Option (ChunkRow × FileRow) :=
  (db.chunks.find? (fun c => c.id == cid)).bind (joinFile db)

/-- Packaging of one scored id into a semantic `SearchResult`. -/
def semResult (t : Int × Rat) (r : ChunkRow × FileRow) : SearchResult :=
  { content := r.1.content, file_name := r.2.name, file_path := r.2.path,
    chunk_index := r.1.chunk_index, score := t.2, is_semantic := true }

/-- The descending-score comparison of `semantic_search` step 3. -/
def scoreGe (a b : Int × Rat) : Prop :=
  b.2 ≤ a.2

instance : DecidableRel scoreGe :=
  fun a b => inferInstanceAs (Decidable (b.2 ≤ a.2))

instance : IsTotal (Int × Rat) scoreGe :=
  ⟨fun a b => le_total b.2 a.2⟩

instance : IsTrans (Int × Rat) scoreGe :=
  ⟨fun _ _ _ hab hbc => le_trans hbc hab⟩

/-- Steps 3-4 of `lib.rs` `semantic_search`: score every cache entry by dot
product, stable-sort descending, keep the top 20, look up chunk rows
(ids whose row lookup fails are dropped, as the `if let Ok` does). -/
def semantic_rank (db : DB) (cache : VectorCache) (query_emb : List Rat) :
    List SearchResult :=
  (((List.insertionSort scoreGe
      (cache.entries.map (fun e => (e.1, cosine_sim query_emb e.2)))).take
        20).filterMap
    (fun t => (lookupChunk db t.1).map (semResult t)))

/-- `lib.rs` `semantic_search`.  Query encoding runs an external inference
session; it is modelled by an optional pre-computed query vector, `none`
meaning the encode failed (the `ok_or` error path).  Returns the possibly
rebuilt cache alongside the outcome. -/
def semantic_search (db : DB) (cache : VectorCache)
    (query_emb : Option (List Rat)) :
    Option (List SearchResult) × VectorCache :=
  match query_emb with
  | none => (none, cache)
  | some qe =>
    let cache2 := ensure_cache_valid db cache
    (some (semantic_rank db cache2 qe), cache2)

-- ═══════════════════ Two-tier dispatch (lib.rs 377-398) ════════════════════

/-- `lib.rs` `ModelStatus`. -/
inductive ModelStatus where
  | loading : ModelStatus
  | ready : ModelStatus
  | failed : List Char → ModelStatus
  | unavailable : ModelStatus
deriving DecidableEq

/-- `lib.rs` `search_text`: empty trimmed query short-circuits; when the
model is ready try semantic search, returning its results when non-empty;
on semantic error, empty semantic results or a non-ready model fall back
to keyword search. -/
def search_text (db : DB) (cache : VectorCache) (status : ModelStatus)
    (query_emb : Option (List Rat)) (query : List Char) :
    List SearchResult × VectorCache :=
  let q := trimChars query
  if q = [] then ([], cache)
  else if status = ModelStatus.ready then
    match semantic_search db cache query_emb with
    | (some res, cache2) =>
      if res = [] then (keyword_search db q, cache2) else (res, cache2)
    | (none, cache2) => (keyword_search db q, cache2)
  else (keyword_search db q, cache)

-- ═══════════════════ Ingestion pipeline (lib.rs 199-374) ═══════════════════

/-- One file found by the folder walk; `content = none` models a file whose
`read_to_string` failed (counted as skipped). -/
structure FileEntry where
  path : List Char
  name : List Char
  content : Option (List Char)
deriving DecidableEq

/-- The store during import: the tables plus the SQLite AUTOINCREMENT
counters feeding `last_insert_rowid`. -/
structure Store where
  db : DB
  next_file_id : Int
  next_chunk_id : Int
deriving DecidableEq

/-- `lib.rs` `ImportResult`. -/
structure ImportResult where
  files_imported : Nat
  chunks_created : Nat
  skipped : Nat
  embeddings_generated : Nat
deriving DecidableEq

/-- Counter sum. -/
def addResult (a b : ImportResult) : ImportResult :=
  ⟨a.files_imported + b.files_imported, a.chunks_created + b.chunks_created,
   a.skipped + b.skipped, a.embeddings_generated + b.embeddings_generated⟩

/-- lib.rs 267-291: look up the file row by path; update its timestamp when
present, insert a fresh row otherwise; yield the row id. -/
def upsert_file (s : Store) (now : Nat) (path name : List Char) :
    Store × Int :=
  match s.db.files.find? (fun f => f.path == path) with
  | some f =>
    ({ s with db := { s.db with files := (s.db.files.map
        (fun g => if g.id == f.id then { g with imported_at := now } else g)) } },
     f.id)
  | none =>
    ({ s with
       db := { s.db with
         files := s.db.files ++ [⟨s.next_file_id, path, name, now⟩] },
       next_file_id := s.next_file_id + 1 },
     s.next_file_id)

/-- lib.rs 293-303: delete the file's embeddings (keyed through its chunks)
and then its chunks. -/
def wipe_file_data (s : Store) (fid : Int) : Store :=
  let oldIds := ((s.db.chunks.filter (fun c => c.file_id == fid)).map
    (fun c => c.id))
  { s with db := { s.db with
      chunk_embeddings :=
        s.db.chunk_embeddings.filter (fun e => !(oldIds.contains e.1)),
      chunks := s.db.chunks.filter (fun c => !(c.file_id == fid)) } }

/-- lib.rs 308-349: insert the segmented chunks in order, encoding each one
when the model is ready (`encode` models `EmbeddingModel::encode`, `none`
being a per-call failure whose embedding is simply omitted).  Returns the
store plus (chunks created, embeddings generated). -/
def insert_chunks (s : Store) (fid : Int) (ready : Bool)
    (enc : List Char → Option (List Rat)) (ci : Int) :
    List (List Char) → Store × Nat × Nat
  | [] => (s, 0, 0)
  | seg :: rest =>
    let cid := s.next_chunk_id
    let s1 : Store :=
      { s with
        db := { s.db with chunks := s.db.chunks ++ [⟨cid, fid, seg, ci⟩] },
        next_chunk_id := cid + 1 }
    let s2 : Store :=
      if ready then
        match enc seg with
        | some v =>
          { s1 with db := { s1.db with
              chunk_embeddings := s1.db.chunk_embeddings ++ [(cid, v)] } }
        | none => s1
      else s1
    let embAdd : Nat :=
      if ready then (match enc seg with | some _ => 1 | none => 0) else 0
    let r := insert_chunks s2 fid ready enc (ci + 1) rest
    (r.1, r.2.1 + 1, r.2.2 + embAdd)

/-- Import of a single walked file (the body of the loop at lib.rs 238-352):
skip unreadable files, otherwise upsert the file row, wipe its old chunks
and embeddings, and insert the fresh segmentation. -/
def import_file (ready : Bool) (enc : List Char → Option (List Rat))
    (now : Nat) (s : Store) (fe : FileEntry) : Store × ImportResult :=
  match fe.content with
  | none => (s, ⟨0, 0, 1, 0⟩)
  | some content =>
    let u := upsert_file s now fe.path fe.name
    let s2 := wipe_file_data u.1 u.2
    let r := insert_chunks s2 u.2 ready enc 0 (segment_text content)
    (r.1, ⟨1, r.2.1, 0, r.2.2⟩)

/-- `lib.rs` `select_and_import_folder` after the folder walk: import every
file, then invalidate the vector cache exactly once. -/
def import_folder (ready : Bool) (enc : List Char → Option (List Rat))
    (now : Nat) (s : Store) (cache : VectorCache)
    (entries : List FileEntry) : Store × VectorCache × ImportResult :=
  let t := entries.foldl
    (fun acc fe =>
      let r := import_file ready enc now acc.1 fe
      (r.1, addResult acc.2 r.2))
    (s, ⟨0, 0, 0, 0⟩)
  (t.1, cache.invalidate, t.2)

-- ═══════════════════ Codec theorems (C1, C4) ═══════════════════════════════

/-- C1: the claim says `bytes_to_vec` fails loudly on a buffer whose length
is not a multiple of 4 and never decodes a prefix.  The code's
`chunks_exact(4)` does the opposite: on the 5-byte buffer
`[0, 0, 0, 0, 7]` it silently drops the trailing byte and returns the
vector decoded from the 4-byte prefix, exactly as if the trailing byte had
never been there. -/
theorem bytes_to_vec_silent_truncation :
    ([0, 0, 0, 0, 7] : List Nat).length % 4 ≠ 0 ∧
    bytes_to_vec [0, 0, 0, 0, 7] = [0] ∧
    bytes_to_vec [0, 0, 0, 0, 7] = bytes_to_vec (vec_to_bytes [0]) := by
  decide

/-- C4: decoding the encoding is the identity on every vector, for every
component count; components are compared as the exact 32-bit patterns the
byte codec transports. -/
theorem bytes_to_vec_roundtrip (v : List Nat)
    (h : ∀ x ∈ v, x < 4294967296) :
    bytes_to_vec (vec_to_bytes v) = v := by
  induction v with
  | nil => rfl
  | cons x xs ih =>
    have hx : x < 4294967296 := h x (List.mem_cons_self x xs)
    have step : vec_to_bytes (x :: xs) =
        x % 256 :: x / 256 % 256 :: x / 65536 % 256 :: x / 16777216 % 256 ::
          vec_to_bytes xs := by
      simp [vec_to_bytes, f32ToLeBytes]
    rw [step, bytes_to_vec]
    rw [f32_roundtrip x hx, ih (fun y hy => h y (List.mem_cons_of_mem x hy))]

/-- C4 witness: a concrete three-component round trip (bit patterns of 0.0,
an arbitrary float, and 1.0f32). -/
theorem bytes_to_vec_roundtrip_witness :
    bytes_to_vec (vec_to_bytes [1, 4294967295, 1065353216]) =
      [1, 4294967295, 1065353216] :=
  bytes_to_vec_roundtrip [1, 4294967295, 1065353216] (by decide)

-- ═══════════════════ Cache rebuild theorem (C5) ═════════════════════════════

/-- C5: after `invalidate()` followed by `ensure_cache_valid`, the cache is
valid and its entry set is exactly the persisted embedding set: every
persisted `(chunk id, vector)` pair is present and nothing else (in
particular no entry of the pre-invalidation cache survives unless it is
still persisted). -/
theorem cache_rebuild_exact (db : DB) (c : VectorCache) :
    (ensure_cache_valid db c.invalidate).valid = true ∧
    (∀ e : Int × List Rat,
      e ∈ (ensure_cache_valid db c.invalidate).entries ↔
        e ∈ db.chunk_embeddings) := by
  constructor
  · simp [ensure_cache_valid, VectorCache.invalidate]
  · intro e
    simp [ensure_cache_valid, VectorCache.invalidate]

/-- C5 witness: a concrete rebuild after invalidation of a stale cache. -/
theorem cache_rebuild_exact_witness :
    (ensure_cache_valid
      ⟨[], [], [(1, [1, 0])]⟩
      (VectorCache.invalidate ⟨[(9, [5, 5])], true⟩)).valid = true :=
  (cache_rebuild_exact ⟨[], [], [(1, [1, 0])]⟩ ⟨[(9, [5, 5])], true⟩).1

-- ═══════════════════ Keyword search theorems (C2) ══════════════════════════

/-- A one-file, one-passage store used for concrete inputs. -/
def dbHello : DB :=
  { files := [⟨1, ['p'], ['f'], 0⟩],
    chunks := [⟨1, 1, ['H', 'e', 'l', 'l', 'o'], 0⟩],
    chunk_embeddings := [(1, [1, 0])] }

/-- C2 counterexample: the claim calls the keyword filter a case-sensitive
substring test, but SQLite's default `LIKE` folds ASCII case.  The query
"hello" is not a case-sensitive substring of the stored passage "Hello",
yet `keyword_search` returns that passage. -/
theorem keyword_search_case_insensitive :
    ¬ (['h', 'e', 'l', 'l', 'o'] <:+: ['H', 'e', 'l', 'l', 'o']) ∧
    keyword_search dbHello ['h', 'e', 'l', 'l', 'o'] =
      [⟨['H', 'e', 'l', 'l', 'o'], ['f'], ['p'], 0, 0, false⟩] := by
  decide

/-- C2, amended: keyword search returns the persisted passages whose text
matches the LIKE pattern built from the query under SQLite's default LIKE
semantics (ASCII-case-insensitive), ordered ascending by passage character
length, capped at 30, each with score 0 and the keyword flag; when at most
30 passages match, every match is returned. -/
theorem keyword_search_spec (db : DB) (query : List Char) :
    (keyword_search db query).length ≤ 30 ∧
    (keyword_search db query).Pairwise
      (fun r1 r2 => r1.content.length ≤ r2.content.length) ∧
    (∀ r ∈ keyword_search db query,
      r.score = 0 ∧ r.is_semantic = false ∧
      ∃ c ∈ db.chunks, ∃ f, joinFile db c = some (c, f) ∧
        likeMatch (likePattern query) c.content = true ∧
        r = kwResult (c, f)) ∧
    ((kwMatches db query).length ≤ 30 →
      ∀ m ∈ kwMatches db query, kwResult m ∈ keyword_search db query) := by
  refine ⟨?_, ?_, ?_, ?_⟩
  · simp [keyword_search]
  · unfold keyword_search
    rw [List.pairwise_map]
    have hs := List.sorted_insertionSort kwLe (kwMatches db query)
    have ht := List.Pairwise.sublist (List.take_sublist 30 _) hs
    exact ht.imp (fun hab => hab)
  · intro r hr
    unfold keyword_search at hr
    obtain ⟨m, hm, hrm⟩ := List.mem_map.mp hr
    have hm2 : m ∈ List.insertionSort kwLe (kwMatches db query) :=
      (List.take_sublist 30 _).mem hm
    have hm3 : m ∈ kwMatches db query :=
      (List.perm_insertionSort kwLe (kwMatches db query)).mem_iff.mp hm2
    unfold kwMatches at hm3
    obtain ⟨hmem, hlike⟩ := List.mem_filter.mp hm3
    obtain ⟨c, hc, hjoin⟩ := List.mem_filterMap.mp hmem
    have hshape : ∃ f, m = (c, f) := by
      unfold joinFile at hjoin
      obtain ⟨f, _, hf2⟩ := Option.map_eq_some'.mp hjoin
      exact ⟨f, hf2.symm⟩
    obtain ⟨f, rfl⟩ := hshape
    refine ⟨by rw [← hrm]; rfl, by rw [← hrm]; rfl, c, hc, f, hjoin, ?_,
      hrm.symm⟩
    simpa using hlike
  · intro hlen m hm
    unfold keyword_search
    have hlen2 : (List.insertionSort kwLe (kwMatches db query)).length ≤ 30 := by
      rw [List.length_insertionSort]
      exact hlen
    rw [List.take_of_length_le hlen2]
    exact List.mem_map_of_mem kwResult
      ((List.perm_insertionSort kwLe (kwMatches db query)).mem_iff.mpr hm)

/-- C2 witness: a concrete match returned with score 0 and keyword flag. -/
theorem keyword_search_spec_witness :
    kwResult (⟨1, 1, ['H', 'e', 'l', 'l', 'o'], 0⟩, ⟨1, ['p'], ['f'], 0⟩) ∈
      keyword_search dbHello ['e'] :=
  (keyword_search_spec dbHello ['e']).2.2.2 (by decide) _ (by decide)

-- ═══════════════════ Semantic ranking theorems (C7) ════════════════════════

theorem keyword_search_flags (db : DB) (q : List Char) :
    ∀ r ∈ keyword_search db q, r.is_semantic = false := by
  intro r hr
  unfold keyword_search at hr
  obtain ⟨m, _, hm⟩ := List.mem_map.mp hr
  rw [← hm]
  rfl

theorem semantic_rank_flags (db : DB) (cache : VectorCache) (qe : List Rat) :
    ∀ r ∈ semantic_rank db cache qe, r.is_semantic = true := by
  intro r hr
  unfold semantic_rank at hr
  obtain ⟨t, _, ht⟩ := List.mem_filterMap.mp hr
  obtain ⟨row, _, hrow⟩ := Option.map_eq_some'.mp ht
  rw [← hrow]
  rfl

/-- C7: semantic ranking scores every cached vector by dot product against
the query vector, returns results in descending score order, caps them at
20, marks each semantic, and each result is the looked-up row of some
cache entry carrying that entry's dot-product score; when the cache holds
at most 20 entries, every entry whose chunk row resolves is returned. -/
theorem semantic_rank_spec (db : DB) (cache : VectorCache) (qe : List Rat) :
    (semantic_rank db cache qe).length ≤ 20 ∧
    (semantic_rank db cache qe).Pairwise
      (fun r1 r2 => r2.score ≤ r1.score) ∧
    (∀ r ∈ semantic_rank db cache qe,
      r.is_semantic = true ∧
      ∃ e ∈ cache.entries, r.score = cosine_sim qe e.2 ∧
        ∃ row, lookupChunk db e.1 = some row ∧
          r = semResult (e.1, cosine_sim qe e.2) row) ∧
    (cache.entries.length ≤ 20 →
      ∀ e ∈ cache.entries, ∀ row, lookupChunk db e.1 = some row →
        semResult (e.1, cosine_sim qe e.2) row ∈ semantic_rank db cache qe) := by
  refine ⟨?_, ?_, ?_, ?_⟩
  · unfold semantic_rank
    calc (((List.insertionSort scoreGe
          (cache.entries.map (fun e => (e.1, cosine_sim qe e.2)))).take
            20).filterMap
        (fun t => (lookupChunk db t.1).map (semResult t))).length
        ≤ ((List.insertionSort scoreGe
          (cache.entries.map (fun e => (e.1, cosine_sim qe e.2)))).take
            20).length := List.length_filterMap_le _ _
      _ ≤ 20 := by simp
  · unfold semantic_rank
    rw [List.pairwise_filterMap]
    have hs := List.sorted_insertionSort scoreGe
      (cache.entries.map (fun e => (e.1, cosine_sim qe e.2)))
    have ht := List.Pairwise.sublist (List.take_sublist 20 _) hs
    refine ht.imp ?_
    intro t1 t2 h12 b hb b2 hb2
    obtain ⟨row1, _, hrow1⟩ := Option.map_eq_some'.mp hb
    obtain ⟨row2, _, hrow2⟩ := Option.map_eq_some'.mp hb2
    rw [← hrow1, ← hrow2]
    exact h12
  · intro r hr
    refine ⟨semantic_rank_flags db cache qe r hr, ?_⟩
    unfold semantic_rank at hr
    obtain ⟨t, ht, hft⟩ := List.mem_filterMap.mp hr
    have ht2 : t ∈ List.insertionSort scoreGe
        (cache.entries.map (fun e => (e.1, cosine_sim qe e.2))) :=
      (List.take_sublist 20 _).mem ht
    have ht3 : t ∈ cache.entries.map (fun e => (e.1, cosine_sim qe e.2)) :=
      (List.perm_insertionSort scoreGe _).mem_iff.mp ht2
    obtain ⟨e, he, hte⟩ := List.mem_map.mp ht3
    obtain ⟨row, hrow, hsem⟩ := Option.map_eq_some'.mp hft
    subst hte
    exact ⟨e, he, by rw [← hsem]; rfl, row, hrow, hsem.symm⟩
  · intro hlen e he row hrow
    unfold semantic_rank
    have hlen2 : (List.insertionSort scoreGe
        (cache.entries.map (fun e => (e.1, cosine_sim qe e.2)))).length ≤ 20 := by
      rw [List.length_insertionSort, List.length_map]
      exact hlen
    rw [List.take_of_length_le hlen2]
    refine List.mem_filterMap.mpr ⟨(e.1, cosine_sim qe e.2), ?_, ?_⟩
    · exact (List.perm_insertionSort scoreGe _).mem_iff.mpr
        (List.mem_map_of_mem _ he)
    · rw [hrow]
      rfl

/-- C7 witness: one cached entry scored, looked up and returned. -/
theorem semantic_rank_spec_witness :
    semResult (1, cosine_sim [1, 0] [1, 0])
        (⟨1, 1, ['H', 'e', 'l', 'l', 'o'], 0⟩, ⟨1, ['p'], ['f'], 0⟩) ∈
      semantic_rank dbHello ⟨[(1, [1, 0])], true⟩ [1, 0] :=
  (semantic_rank_spec dbHello ⟨[(1, [1, 0])], true⟩ [1, 0]).2.2.2 (by decide)
    (1, [1, 0]) (by decide) _ (by decide)

-- ═══════════════════ Dispatch theorems (C6) ════════════════════════════════

theorem semantic_rank_ne_keyword (db : DB) (cache : VectorCache)
    (qe : List Rat) (q : List Char)
    (hne : semantic_rank db cache qe ≠ []) :
    semantic_rank db cache qe ≠ keyword_search db q := by
  intro heq
  obtain ⟨r, rest, hcons⟩ := List.exists_cons_of_ne_nil hne
  have h1 : r.is_semantic = true :=
    semantic_rank_flags db cache qe r (by
      rw [hcons]
      exact List.mem_cons_self r rest)
  have h2 : r.is_semantic = false :=
    keyword_search_flags db q r (by
      rw [← heq, hcons]
      exact List.mem_cons_self r rest)
  rw [h1] at h2
  simp at h2

theorem search_text_not_ready (db : DB) (cache : VectorCache)
    (status : ModelStatus) (qe : Option (List Rat)) (query : List Char)
    (h : trimChars query ≠ []) (hst : status ≠ ModelStatus.ready) :
    (search_text db cache status qe query).1 =
      keyword_search db (trimChars query) := by
  unfold search_text
  simp [h, hst]

theorem search_text_encode_failed (db : DB) (cache : VectorCache)
    (query : List Char) (h : trimChars query ≠ []) :
    (search_text db cache ModelStatus.ready none query).1 =
      keyword_search db (trimChars query) := by
  unfold search_text semantic_search
  simp [h]

theorem search_text_semantic (db : DB) (cache : VectorCache)
    (query : List Char) (v : List Rat) (h : trimChars query ≠ []) :
    (search_text db cache ModelStatus.ready (some v) query).1 =
      (if semantic_rank db (ensure_cache_valid db cache) v = []
       then keyword_search db (trimChars query)
       else semantic_rank db (ensure_cache_valid db cache) v) := by
  unfold search_text semantic_search
  by_cases hres : semantic_rank db (ensure_cache_valid db cache) v = [] <;>
    simp [h, hres]

/-- C6: for a non-empty trimmed query, the result of `search_text` is the
keyword fallback exactly when the model status is not ready, or the query
encoding failed, or the semantic ranking is empty; in every other case it
is the semantic ranking itself (so keyword results never replace
non-empty semantic ones). -/
theorem search_text_fallback_iff (db : DB) (cache : VectorCache)
    (status : ModelStatus) (qe : Option (List Rat)) (query : List Char)
    (h : trimChars query ≠ []) :
    ((search_text db cache status qe query).1 =
        keyword_search db (trimChars query) ↔
      (status ≠ ModelStatus.ready ∨ qe = none ∨
        (∃ v, qe = some v ∧
          semantic_rank db (ensure_cache_valid db cache) v = []))) ∧
    (∀ v, status = ModelStatus.ready → qe = some v →
      semantic_rank db (ensure_cache_valid db cache) v ≠ [] →
      (search_text db cache status qe query).1 =
        semantic_rank db (ensure_cache_valid db cache) v) := by
  constructor
  · constructor
    · intro heq
      by_cases hst : status = ModelStatus.ready
      · subst hst
        cases qe with
        | none => exact Or.inr (Or.inl rfl)
        | some v =>
          by_cases hres :
              semantic_rank db (ensure_cache_valid db cache) v = []
          · exact Or.inr (Or.inr ⟨v, rfl, hres⟩)
          · exfalso
            rw [search_text_semantic db cache query v h, if_neg hres] at heq
            exact semantic_rank_ne_keyword db (ensure_cache_valid db cache) v
              (trimChars query) hres heq
      · exact Or.inl hst
    · intro hcond
      rcases hcond with hst | hqe | ⟨v, hqe, hres⟩
      · exact search_text_not_ready db cache status qe query h hst
      · by_cases hst : status = ModelStatus.ready
        · subst hst
          rw [hqe]
          exact search_text_encode_failed db cache query h
        · exact search_text_not_ready db cache status qe query h hst
      · by_cases hst : status = ModelStatus.ready
        · subst hst
          rw [hqe, search_text_semantic db cache query v h, if_pos hres]
        · exact search_text_not_ready db cache status qe query h hst
  · intro v hst hqe hres
    subst hst
    rw [hqe, search_text_semantic db cache query v h, if_neg hres]

/-- C6 witness: with the model unavailable, a concrete search falls back to
keyword results. -/
theorem search_text_fallback_iff_witness :
    (search_text dbHello ⟨[], false⟩ ModelStatus.unavailable none ['e']).1 =
      keyword_search dbHello (trimChars ['e']) :=
  ((search_text_fallback_iff dbHello ⟨[], false⟩ ModelStatus.unavailable none
      ['e'] (by decide)).1).mpr (Or.inl (by decide))

-- ═══════════════════ Trim lemmas (for the segmenter theorems) ══════════════

/-- A string with no leading and no trailing whitespace. -/
def NoEdgeWs (s : List Char) : Prop :=
  (∀ c, s.head? = some c → isWs c = false) ∧
  (∀ c, s.getLast? = some c → isWs c = false)

theorem head?_dropWhile_isWs (l : List Char) (c : Char)
    (h : (l.dropWhile isWs).head? = some c) : isWs c = false := by
  have h2 := List.head?_dropWhile_not isWs l
  rw [h] at h2
  exact h2

theorem getLast?_dropWhile_of_ne_nil (p : Char → Bool) (l : List Char)
    (h : l.dropWhile p ≠ []) :
    (l.dropWhile p).getLast? = l.getLast? := by
  conv_rhs => rw [← List.takeWhile_append_dropWhile p l]
  rw [List.getLast?_append]
  obtain ⟨x, hx⟩ := Option.isSome_iff_exists.mp (List.getLast?_isSome.mpr h)
  rw [hx]
  rfl

theorem trimChars_noEdgeWs (s : List Char) : NoEdgeWs (trimChars s) := by
  unfold trimChars
  constructor
  · intro c hc
    rw [List.head?_reverse] at hc
    by_cases hnil : (s.dropWhile isWs).reverse.dropWhile isWs = []
    · rw [hnil] at hc
      simp at hc
    · rw [getLast?_dropWhile_of_ne_nil isWs _ hnil,
        List.getLast?_reverse] at hc
      exact head?_dropWhile_isWs s c hc
  · intro c hc
    rw [List.getLast?_reverse] at hc
    exact head?_dropWhile_isWs _ c hc

theorem dropWhile_eq_self_of_head (l : List Char)
    (h : ∀ c, l.head? = some c → isWs c = false) :
    l.dropWhile isWs = l := by
  cases l with
  | nil => rfl
  | cons a t =>
    rw [List.dropWhile_cons, h a rfl]
    simp

theorem trimChars_eq_self (s : List Char) (h : NoEdgeWs s) :
    trimChars s = s := by
  unfold trimChars
  rw [dropWhile_eq_self_of_head s h.1]
  have h2 : s.reverse.dropWhile isWs = s.reverse := by
    apply dropWhile_eq_self_of_head
    intro c hc
    rw [List.head?_reverse] at hc
    exact h.2 c hc
  rw [h2, List.reverse_reverse]

theorem trimChars_sublist (s : List Char) : (trimChars s).Sublist s := by
  unfold trimChars
  exact (List.reverse_sublist.mp
    (by
      rw [List.reverse_reverse]
      exact List.dropWhile_sublist isWs)).trans
    (List.dropWhile_sublist isWs)

theorem utf8Len_append (a b : List Char) :
    utf8Len (a ++ b) = utf8Len a + utf8Len b := by
  simp [utf8Len]

theorem utf8Len_sublist (a b : List Char) (h : a.Sublist b) :
    utf8Len a ≤ utf8Len b :=
  List.Sublist.sum_le_sum (h.map Char.utf8Size) (fun x _ => Nat.zero_le x)

theorem utf8Len_join (buf sent : List Char) :
    utf8Len (buf ++ '.' :: ' ' :: sent) = utf8Len buf + utf8Len sent + 2 := by
  rw [utf8Len_append]
  have h1 : Char.utf8Size '.' = 1 := rfl
  have h2 : Char.utf8Size ' ' = 1 := rfl
  simp [utf8Len, h1, h2]
  omega

theorem noEdgeWs_join (buf sent : List Char) (hb : NoEdgeWs buf)
    (hs : NoEdgeWs sent) (hnb : buf ≠ []) (hns : sent ≠ []) :
    NoEdgeWs (buf ++ '.' :: ' ' :: sent) := by
  constructor
  · intro c hc
    obtain ⟨x, t, rfl⟩ := List.exists_cons_of_ne_nil hnb
    rw [List.cons_append, List.head?_cons] at hc
    injection hc with h3
    rw [← h3]
    exact hb.1 x rfl
  · intro c hc
    rw [List.getLast?_append] at hc
    obtain ⟨y, hy⟩ := Option.isSome_iff_exists.mp (List.getLast?_isSome.mpr hns)
    obtain ⟨z, u, rfl⟩ := List.exists_cons_of_ne_nil hns
    rw [List.getLast?_cons_cons, List.getLast?_cons_cons, hy] at hc
    change some y = some c at hc
    injection hc with h5
    rw [← h5]
    exact hs.2 y hy

-- ═══════════════════ Segmenter invariants (C3, C10) ════════════════════════

/-- `chunk` is the trim of one ". "-separated sentence unit of `para`. -/
def SentUnit (para chunk : List Char) : Prop :=
  ∃ sent0 ∈ splitOn2 '.' ' ' para, chunk = trimChars sent0

/-- What `segment_text` guarantees of every pushed chunk: at least `SEG_MIN`
bytes, no edge whitespace, and either at most `SEG_MAX` bytes or a lone
sentence unit of one paragraph of the input. -/
def GoodChunk (text chunk : List Char) : Prop :=
  SEG_MIN ≤ utf8Len chunk ∧ NoEdgeWs chunk ∧
  (utf8Len chunk ≤ SEG_MAX ∨
    ∃ para0 ∈ splitOn2 '\n' '\n' text, SentUnit (trimChars para0) chunk)

/-- Invariant of the sentence-loop buffer: empty, or trimmed with either at
most `SEG_MAX` bytes (a multi-unit buffer) or equal to a lone sentence
unit (which may be oversized). -/
def BufInv (para buf : List Char) : Prop :=
  buf = [] ∨
    (NoEdgeWs buf ∧ (utf8Len buf ≤ SEG_MAX ∨ SentUnit para buf))

theorem flush_good (text para0 buf : List Char)
    (hpara : para0 ∈ splitOn2 '\n' '\n' text)
    (hbuf : BufInv (trimChars para0) buf) (hmin : SEG_MIN ≤ utf8Len buf) :
    GoodChunk text (trimChars buf) := by
  rcases hbuf with rfl | ⟨hne, hrest⟩
  · simp [utf8Len, SEG_MIN] at hmin
  · rw [trimChars_eq_self buf hne]
    exact ⟨hmin, hne, hrest.imp_right (fun hs => ⟨para0, hpara, hs⟩)⟩

theorem sentStep_empty (st : List (List Char) × List Char)
    (sent0 : List Char) (h : trimChars sent0 = []) :
    sentStep st sent0 = st := by
  simp [sentStep, h]

theorem sentStep_over (st : List (List Char) × List Char)
    (sent0 : List Char) (h1 : trimChars sent0 ≠ [])
    (h2 : st.2 ≠ [] ∧ utf8Len st.2 + utf8Len (trimChars sent0) + 2 > SEG_MAX) :
    sentStep st sent0 =
      ((if SEG_MIN ≤ utf8Len st.2 then st.1 ++ [trimChars st.2] else st.1),
        trimChars sent0) := by
  simp [sentStep, h1, h2]

theorem sentStep_app (st : List (List Char) × List Char)
    (sent0 : List Char) (h1 : trimChars sent0 ≠ [])
    (h2 : ¬(st.2 ≠ [] ∧
      utf8Len st.2 + utf8Len (trimChars sent0) + 2 > SEG_MAX)) :
    sentStep st sent0 =
      (st.1, if st.2 = [] then trimChars sent0
             else st.2 ++ '.' :: ' ' :: trimChars sent0) := by
  simp [sentStep, h1, h2]

theorem sentStep_inv (text para0 : List Char)
    (hpara : para0 ∈ splitOn2 '\n' '\n' text)
    (st : List (List Char) × List Char) (sent0 : List Char)
    (hsent : sent0 ∈ splitOn2 '.' ' ' (trimChars para0))
    (hchunks : ∀ ch ∈ st.1, GoodChunk text ch)
    (hbuf : BufInv (trimChars para0) st.2) :
    (∀ ch ∈ (sentStep st sent0).1, GoodChunk text ch) ∧
    BufInv (trimChars para0) (sentStep st sent0).2 := by
  by_cases hemp : trimChars sent0 = []
  · rw [sentStep_empty st sent0 hemp]
    exact ⟨hchunks, hbuf⟩
  · have hsentNe : NoEdgeWs (trimChars sent0) := trimChars_noEdgeWs sent0
    have hsentUnit : SentUnit (trimChars para0) (trimChars sent0) :=
      ⟨sent0, hsent, rfl⟩
    by_cases hover : st.2 ≠ [] ∧
        utf8Len st.2 + utf8Len (trimChars sent0) + 2 > SEG_MAX
    · rw [sentStep_over st sent0 hemp hover]
      constructor
      · by_cases hmin : SEG_MIN ≤ utf8Len st.2
        · rw [if_pos hmin]
          intro ch hch
          rcases List.mem_append.mp hch with hch2 | hch2
          · exact hchunks ch hch2
          · rw [List.mem_singleton.mp hch2]
            exact flush_good text para0 st.2 hpara hbuf hmin
        · rw [if_neg hmin]
          exact hchunks
      · exact Or.inr ⟨hsentNe, Or.inr hsentUnit⟩
    · rw [sentStep_app st sent0 hemp hover]
      refine ⟨hchunks, ?_⟩
      by_cases hbe : st.2 = []
      · rw [if_pos hbe]
        exact Or.inr ⟨hsentNe, Or.inr hsentUnit⟩
      · rw [if_neg hbe]
        rcases hbuf with heq | ⟨hbufNe, _⟩
        · exact absurd heq hbe
        · refine Or.inr ⟨noEdgeWs_join st.2 (trimChars sent0) hbufNe hsentNe
            hbe hemp, Or.inl ?_⟩
          rw [utf8Len_join]
          push_neg at hover
          exact hover hbe

theorem sentFold_inv (text para0 : List Char)
    (hpara : para0 ∈ splitOn2 '\n' '\n' text) (l : List (List Char))
    (hsub : ∀ x ∈ l, x ∈ splitOn2 '.' ' ' (trimChars para0)) :
    ∀ st : List (List Char) × List Char,
      (∀ ch ∈ st.1, GoodChunk text ch) →
      BufInv (trimChars para0) st.2 →
      (∀ ch ∈ (l.foldl sentStep st).1, GoodChunk text ch) ∧
      BufInv (trimChars para0) (l.foldl sentStep st).2 := by
  induction l with
  | nil =>
    intro st h1 h2
    exact ⟨h1, h2⟩
  | cons x xs ih =>
    intro st h1 h2
    rw [List.foldl_cons]
    have hx := sentStep_inv text para0 hpara st x
      (hsub x (List.mem_cons_self x xs)) h1 h2
    exact ih (fun y hy => hsub y (List.mem_cons_of_mem x hy))
      (sentStep st x) hx.1 hx.2

theorem paraStep_good (text : List Char) (chunks : List (List Char))
    (para0 : List Char) (hpara : para0 ∈ splitOn2 '\n' '\n' text)
    (h : ∀ ch ∈ chunks, GoodChunk text ch) :
    ∀ ch ∈ paraStep chunks para0, GoodChunk text ch := by
  unfold paraStep
  by_cases h1 : utf8Len (trimChars para0) < SEG_MIN
  · rw [if_pos h1]
    exact h
  · rw [if_neg h1]
    by_cases h2 : utf8Len (trimChars para0) ≤ SEG_MAX
    · rw [if_pos h2]
      intro ch hch
      rcases List.mem_append.mp hch with hch2 | hch2
      · exact h ch hch2
      · rw [List.mem_singleton.mp hch2]
        exact ⟨Nat.le_of_not_lt h1, trimChars_noEdgeWs para0, Or.inl h2⟩
    · rw [if_neg h2]
      have hfold := sentFold_inv text para0 hpara
        (splitOn2 '.' ' ' (trimChars para0)) (fun x hx => hx)
        (chunks, []) h (Or.inl rfl)
      by_cases h3 : SEG_MIN ≤ utf8Len
          ((splitOn2 '.' ' ' (trimChars para0)).foldl sentStep
            (chunks, [])).2
      · rw [if_pos h3]
        intro ch hch
        rcases List.mem_append.mp hch with hch2 | hch2
        · exact hfold.1 ch hch2
        · rw [List.mem_singleton.mp hch2]
          exact flush_good text para0 _ hpara hfold.2 h3
      · rw [if_neg h3]
        exact hfold.1

theorem segment_text_good (text : List Char) :
    ∀ ch ∈ segment_text text, GoodChunk text ch := by
  unfold segment_text
  have main : ∀ l : List (List Char),
      (∀ x ∈ l, x ∈ splitOn2 '\n' '\n' text) →
      ∀ chunks : List (List Char), (∀ ch ∈ chunks, GoodChunk text ch) →
      ∀ ch ∈ l.foldl paraStep chunks, GoodChunk text ch := by
    intro l
    induction l with
    | nil =>
      intro _ chunks hc
      simpa using hc
    | cons x xs ih =>
      intro hsub chunks hc
      rw [List.foldl_cons]
      exact ih (fun y hy => hsub y (List.mem_cons_of_mem x hy))
        (paraStep chunks x)
        (paraStep_good text chunks x (hsub x (List.mem_cons_self x xs)) hc)
  exact main (splitOn2 '\n' '\n' text) (fun x hx => hx) []
    (fun ch hch => absurd hch (List.not_mem_nil ch))

-- ═══════════════════ Segmenter theorems (C3, C10) ══════════════════════════

/-- C3 counterexample: the claim measures passages in characters, but the
code measures Rust byte lengths.  Fifteen ideographs are 45 UTF-8 bytes,
so the segmenter keeps them as a passage of only 15 characters — below
the claimed 30-character minimum and not an oversized lone sentence. -/
theorem segment_text_char_count_cex :
    segment_text (List.replicate 15 '中') = [List.replicate 15 '中'] ∧
    (List.replicate 15 '中').length = 15 := by
  constructor
  · rfl
  · rfl

/-- C3, amended: with passage length measured in UTF-8 bytes (Rust
`str::len`, as the code does), every produced passage has at least
`SEG_MIN = 30` and at most `SEG_MAX = 500` bytes, except a passage that is
a lone (trimmed) ". "-sentence unit of one input paragraph and itself
exceeds 500 bytes, which is kept whole; empty input yields no passages. -/
theorem segment_text_bounds (text : List Char) :
    segment_text [] = [] ∧
    ∀ chunk ∈ segment_text text,
      SEG_MIN ≤ utf8Len chunk ∧
      (utf8Len chunk ≤ SEG_MAX ∨
        (SEG_MAX < utf8Len chunk ∧
          ∃ para0 ∈ splitOn2 '\n' '\n' text,
            SentUnit (trimChars para0) chunk)) := by
  refine ⟨rfl, ?_⟩
  intro chunk hch
  obtain ⟨hmin, _, hrest⟩ := segment_text_good text chunk hch
  refine ⟨hmin, ?_⟩
  by_cases hle : utf8Len chunk ≤ SEG_MAX
  · exact Or.inl hle
  · rcases hrest with hle2 | hunit
    · exact Or.inl hle2
    · exact Or.inr ⟨Nat.lt_of_not_le hle, hunit⟩

/-- C3 witness: a 40-byte ASCII paragraph is one in-bounds passage. -/
theorem segment_text_bounds_witness :
    SEG_MIN ≤ utf8Len (List.replicate 40 'a') :=
  ((segment_text_bounds (List.replicate 40 'a')).2
    (List.replicate 40 'a') (by decide)).1

/-- C10: every passage the segmenter produces carries no leading and no
trailing whitespace (Rust `char::is_whitespace`); equivalently it is its
own trim. -/
theorem segment_text_trimmed (text : List Char) :
    ∀ chunk ∈ segment_text text,
      (∀ c, chunk.head? = some c → isWs c = false) ∧
      (∀ c, chunk.getLast? = some c → isWs c = false) ∧
      trimChars chunk = chunk := by
  intro chunk hch
  obtain ⟨_, hedge, _⟩ := segment_text_good text chunk hch
  exact ⟨hedge.1, hedge.2, trimChars_eq_self chunk hedge⟩

/-- C10 witness: a concrete passage equals its own trim. -/
theorem segment_text_trimmed_witness :
    trimChars (List.replicate 40 'b') = List.replicate 40 'b' :=
  ((segment_text_trimmed (' ' :: List.replicate 40 'b' ++ [' '])
    (List.replicate 40 'b') (by decide)).2).2

-- ═══════════════════ Import lemmas (C8) ════════════════════════════════════

/-- The `path UNIQUE` schema constraint, as a store invariant. -/
def PathsNodup (s : Store) : Prop :=
  (s.db.files.map (fun f => f.path)).Nodup

/-- AUTOINCREMENT invariant: every chunk id is below the next fresh id. -/
def ChunkIdsFresh (s : Store) : Prop :=
  ∀ c ∈ s.db.chunks, c.id < s.next_chunk_id

/-- Segments paired with their indices counting up from `i`. -/
def indexedFrom (i : Int) : List (List Char) → List (List Char × Int)
  | [] => []
  | x :: xs => (x, i) :: indexedFrom (i + 1) xs

/-- The chunk rows `insert_chunks` creates: ids from `cid0`, indices from
`ci0`. -/
def freshChunks (fid : Int) (cid0 ci0 : Int) :
    List (List Char) → List ChunkRow
  | [] => []
  | seg :: rest =>
    ⟨cid0, fid, seg, ci0⟩ :: freshChunks fid (cid0 + 1) (ci0 + 1) rest

/-- The embedding rows `insert_chunks` creates. -/
def freshEmbs (ready : Bool) (enc : List Char → Option (List Rat))
    (cid0 : Int) : List (List Char) → List (Int × List Rat)
  | [] => []
  | seg :: rest =>
    (if ready then
      (match enc seg with
       | some v => [(cid0, v)]
       | none => [])
     else []) ++ freshEmbs ready enc (cid0 + 1) rest

/-- How many embeddings `insert_chunks` generates. -/
def countEmb (ready : Bool) (enc : List Char → Option (List Rat)) :
    List (List Char) → Nat
  | [] => 0
  | seg :: rest =>
    (if ready then (match enc seg with | some _ => 1 | none => 0) else 0) +
      countEmb ready enc rest

theorem insert_chunks_spec (ready : Bool)
    (enc : List Char → Option (List Rat)) (fid : Int) :
    ∀ (segs : List (List Char)) (s : Store) (ci : Int),
    insert_chunks s fid ready enc ci segs =
      (⟨⟨s.db.files,
         s.db.chunks ++ freshChunks fid s.next_chunk_id ci segs,
         s.db.chunk_embeddings ++ freshEmbs ready enc s.next_chunk_id segs⟩,
        s.next_file_id, s.next_chunk_id + segs.length⟩,
       segs.length, countEmb ready enc segs) := by
  intro segs
  induction segs with
  | nil =>
    intro s ci
    simp [insert_chunks, freshChunks, freshEmbs, countEmb]
  | cons seg rest ih =>
    intro s ci
    by_cases hr : ready = true
    · subst hr
      cases henc : enc seg with
      | none =>
        simp only [insert_chunks, henc, ih, freshChunks, freshEmbs,
          countEmb, ite_true, List.append_assoc, List.singleton_append,
          List.nil_append, List.append_nil, List.length_cons,
          Prod.mk.injEq, Store.mk.injEq, DB.mk.injEq]
        and_intros <;> first | rfl | trivial | omega
      | some v =>
        simp only [insert_chunks, henc, ih, freshChunks, freshEmbs,
          countEmb, ite_true, List.append_assoc, List.singleton_append,
          List.nil_append, List.length_cons,
          Prod.mk.injEq, Store.mk.injEq, DB.mk.injEq]
        and_intros <;> first | rfl | trivial | omega
    · rw [Bool.not_eq_true] at hr
      subst hr
      simp [insert_chunks, ih, freshChunks, freshEmbs, countEmb,
        List.append_assoc, Prod.mk.injEq, Store.mk.injEq, DB.mk.injEq]
      and_intros <;> first | rfl | trivial | omega

theorem find?_path_eq (files : List FileRow) (f : FileRow)
    (hnd : (files.map (fun g => g.path)).Nodup) (hf : f ∈ files) :
    files.find? (fun g => g.path == f.path) = some f := by
  induction files with
  | nil => cases hf
  | cons a t ih =>
    rcases List.mem_cons.mp hf with rfl | hft
    · exact List.find?_cons_of_pos t (by simp)
    · have hne : ¬(a.path == f.path) = true := by
        simp only [beq_iff_eq]
        intro hpp
        have : a.path ∈ t.map (fun g => g.path) := by
          rw [hpp]
          exact List.mem_map_of_mem (fun g => g.path) hft
        exact (List.nodup_cons.mp (by simpa using hnd)).1 this
      rw [List.find?_cons_of_neg t hne]
      exact ih (List.nodup_cons.mp (by simpa using hnd)).2 hft

theorem filter_path_eq (files : List FileRow) (f : FileRow)
    (hnd : (files.map (fun g => g.path)).Nodup) (hf : f ∈ files) :
    files.filter (fun g => g.path == f.path) = [f] := by
  induction files with
  | nil => cases hf
  | cons a t ih =>
    rw [List.filter_cons]
    rcases List.mem_cons.mp hf with rfl | hft
    · rw [if_pos (by simp)]
      have hnil : t.filter (fun g => g.path == f.path) = [] := by
        rw [List.filter_eq_nil_iff]
        intro g hg
        simp only [beq_iff_eq]
        intro hpp
        have : f.path ∈ t.map (fun x => x.path) := by
          rw [← hpp]
          exact List.mem_map_of_mem (fun x => x.path) hg
        exact (List.nodup_cons.mp (by simpa using hnd)).1 this
      rw [hnil]
    · have hne : ¬(a.path == f.path) = true := by
        simp only [beq_iff_eq]
        intro hpp
        have : a.path ∈ t.map (fun g => g.path) := by
          rw [hpp]
          exact List.mem_map_of_mem (fun g => g.path) hft
        exact (List.nodup_cons.mp (by simpa using hnd)).1 this
      rw [if_neg hne]
      exact ih (List.nodup_cons.mp (by simpa using hnd)).2 hft

theorem upsert_file_existing (s : Store) (now : Nat) (f : FileRow)
    (nm : List Char) (hnd : PathsNodup s) (hf : f ∈ s.db.files) :
    upsert_file s now f.path nm =
      ({ s with db := { s.db with files := (s.db.files.map
          (fun g => if g.id == f.id then { g with imported_at := now }
                    else g)) } },
       f.id) := by
  unfold upsert_file
  rw [find?_path_eq s.db.files f hnd hf]

theorem freshChunks_map_ci (fid : Int) :
    ∀ (segs : List (List Char)) (cid0 ci0 : Int),
    (freshChunks fid cid0 ci0 segs).map (fun c => (c.content, c.chunk_index)) =
      indexedFrom ci0 segs := by
  intro segs
  induction segs with
  | nil =>
    intro cid0 ci0
    rfl
  | cons x xs ih =>
    intro cid0 ci0
    simp [freshChunks, indexedFrom, ih]

theorem freshChunks_mem (fid : Int) :
    ∀ (segs : List (List Char)) (cid0 ci0 : Int) (c : ChunkRow),
    c ∈ freshChunks fid cid0 ci0 segs → c.file_id = fid ∧ cid0 ≤ c.id := by
  intro segs
  induction segs with
  | nil =>
    intro cid0 ci0 c hc
    cases hc
  | cons x xs ih =>
    intro cid0 ci0 c hc
    rcases List.mem_cons.mp hc with rfl | hc2
    · exact ⟨rfl, le_refl _⟩
    · have h2 := ih (cid0 + 1) (ci0 + 1) c hc2
      exact ⟨h2.1, by omega⟩

theorem freshEmbs_keys (ready : Bool) (enc : List Char → Option (List Rat)) :
    ∀ (segs : List (List Char)) (cid0 : Int) (e : Int × List Rat),
    e ∈ freshEmbs ready enc cid0 segs → cid0 ≤ e.1 := by
  intro segs
  induction segs with
  | nil =>
    intro cid0 e he
    cases he
  | cons x xs ih =>
    intro cid0 e he
    unfold freshEmbs at he
    rcases List.mem_append.mp he with h1 | h2
    · cases ready with
      | false => simp at h1
      | true =>
        cases henc : enc x with
        | none =>
          rw [henc] at h1
          simp at h1
        | some v =>
          rw [henc] at h1
          simp at h1
          simp [h1]
    · have := ih (cid0 + 1) e h2
      omega

theorem freshChunks_emb (enc : List Char → Option (List Rat)) (fid : Int) :
    ∀ (segs : List (List Char)) (cid0 ci0 : Int) (c : ChunkRow)
      (v : List Rat),
    c ∈ freshChunks fid cid0 ci0 segs → enc c.content = some v →
    (c.id, v) ∈ freshEmbs true enc cid0 segs := by
  intro segs
  induction segs with
  | nil =>
    intro cid0 ci0 c v hc _
    cases hc
  | cons x xs ih =>
    intro cid0 ci0 c v hc henc
    unfold freshEmbs
    rcases List.mem_cons.mp hc with rfl | hc2
    · have henc2 : enc x = some v := henc
      simp [henc2]
    · exact List.mem_append_right _ (ih (cid0 + 1) (ci0 + 1) c v hc2 henc)

theorem import_file_existing (ready : Bool)
    (enc : List Char → Option (List Rat)) (now : Nat) (s : Store)
    (f : FileRow) (nm content : List Char) (hnd : PathsNodup s)
    (hf : f ∈ s.db.files) :
    (import_file ready enc now s ⟨f.path, nm, some content⟩).1 =
      ⟨⟨(s.db.files.map (fun g => if g.id == f.id
            then { g with imported_at := now } else g)),
        (s.db.chunks.filter (fun c => !(c.file_id == f.id))) ++
          freshChunks f.id s.next_chunk_id 0 (segment_text content),
        (s.db.chunk_embeddings.filter (fun e =>
          !(((s.db.chunks.filter (fun c => c.file_id == f.id)).map
              (fun c => c.id)).contains e.1))) ++
          freshEmbs ready enc s.next_chunk_id (segment_text content)⟩,
       s.next_file_id, s.next_chunk_id + (segment_text content).length⟩ := by
  unfold import_file
  simp only [upsert_file_existing s now f nm hnd hf, wipe_file_data,
    insert_chunks_spec]

/-- The counters one file contributes, independent of the store state. -/
def fileResult (ready : Bool) (enc : List Char → Option (List Rat))
    (fe : FileEntry) : ImportResult :=
  match fe.content with
  | none => ⟨0, 0, 1, 0⟩
  | some content =>
    ⟨1, (segment_text content).length, 0,
     countEmb ready enc (segment_text content)⟩

theorem import_file_result (ready : Bool)
    (enc : List Char → Option (List Rat)) (now : Nat) (s : Store)
    (fe : FileEntry) :
    (import_file ready enc now s fe).2 = fileResult ready enc fe := by
  cases hc : fe.content with
  | none => simp [import_file, fileResult, hc]
  | some content => simp [import_file, fileResult, hc, insert_chunks_spec]

theorem import_folder_counters (ready : Bool)
    (enc : List Char → Option (List Rat)) :
    ∀ (entries : List FileEntry) (now : Nat) (s : Store)
      (r0 : ImportResult),
    (entries.foldl (fun acc fe =>
        let r := import_file ready enc now acc.1 fe
        (r.1, addResult acc.2 r.2)) (s, r0)).2 =
      (entries.map (fileResult ready enc)).foldl addResult r0 := by
  intro entries
  induction entries with
  | nil =>
    intro now s r0
    rfl
  | cons fe rest ih =>
    intro now s r0
    rw [List.foldl_cons, List.map_cons, List.foldl_cons,
      ← import_file_result ready enc now s fe]
    exact ih now _ _

theorem import_folder_result (ready : Bool)
    (enc : List Char → Option (List Rat)) (now : Nat) (s : Store)
    (cache : VectorCache) (entries : List FileEntry) :
    (import_folder ready enc now s cache entries).2.2 =
      (entries.map (fileResult ready enc)).foldl addResult ⟨0, 0, 0, 0⟩ := by
  unfold import_folder
  exact import_folder_counters ready enc entries now s ⟨0, 0, 0, 0⟩

theorem upd_path (f g : FileRow) (now : Nat) :
    (if g.id == f.id then { g with imported_at := now } else g).path =
      g.path := by
  split <;> rfl

theorem import_file_paths_nodup (ready : Bool)
    (enc : List Char → Option (List Rat)) (now : Nat) (s : Store)
    (fe : FileEntry) (h : PathsNodup s) :
    PathsNodup (import_file ready enc now s fe).1 := by
  cases hc : fe.content with
  | none => simpa [import_file, hc] using h
  | some content =>
    have hfiles : (import_file ready enc now s fe).1.db.files =
        (upsert_file s now fe.path fe.name).1.db.files := by
      simp [import_file, hc, wipe_file_data, insert_chunks_spec]
    unfold PathsNodup
    rw [hfiles]
    unfold upsert_file
    cases hfind : s.db.files.find? (fun g => g.path == fe.path) with
    | some f =>
      show ((s.db.files.map (fun g => if g.id == f.id
          then { g with imported_at := now } else g)).map
            (fun g => g.path)).Nodup
      have hmap : s.db.files.map ((fun g => g.path) ∘
          (fun g => if g.id == f.id
            then { g with imported_at := now } else g)) =
          s.db.files.map (fun g => g.path) :=
        List.map_congr_left (fun g _ => upd_path f g now)
      rw [List.map_map, hmap]
      exact h
    | none =>
      have hnotin : ¬ fe.path ∈ s.db.files.map (fun g => g.path) := by
        intro hmem
        obtain ⟨g, hg, hgp⟩ := List.mem_map.mp hmem
        exact absurd (by simpa using hgp)
          (List.find?_eq_none.mp hfind g hg)
      simp only [List.map_append]
      rw [List.nodup_append]
      exact ⟨h, List.nodup_singleton _,
        by simpa [List.disjoint_singleton] using hnotin⟩

theorem import_folder_paths_nodup (ready : Bool)
    (enc : List Char → Option (List Rat)) :
    ∀ (entries : List FileEntry) (now : Nat) (st : Store × ImportResult),
    PathsNodup st.1 →
    PathsNodup ((entries.foldl (fun acc fe =>
        let r := import_file ready enc now acc.1 fe
        (r.1, addResult acc.2 r.2)) st).1) := by
  intro entries
  induction entries with
  | nil =>
    intro now st h
    exact h
  | cons fe rest ih =>
    intro now st h
    rw [List.foldl_cons]
    exact ih now _ (import_file_paths_nodup ready enc now st.1 fe h)

-- ═══════════════════ Re-import theorem (C8) ════════════════════════════════

/-- C8: re-importing a file whose path already has a row (1) leaves exactly
one row with that path, carrying the same id and the fresh timestamp, and
the path set of the files table unchanged; (2) replaces that file's chunks
wholesale with the fresh segmentation, indexed from 0; (3) leaves no
embedding keyed to any of the file's old chunks; (4) gives every fresh
chunk whose encoding succeeds an embedding row.  Moreover importing the
same folder twice yields identical counters (they depend only on the
folder contents), and the path-uniqueness invariant is preserved, so no
duplicate Document rows ever appear. -/
theorem import_reimport_spec (ready : Bool)
    (enc : List Char → Option (List Rat)) :
    (∀ (now : Nat) (s : Store) (f : FileRow) (nm content : List Char),
      PathsNodup s → ChunkIdsFresh s → f ∈ s.db.files →
      ((((import_file ready enc now s
            ⟨f.path, nm, some content⟩).1).db.files.filter
          (fun g => g.path == f.path)).map
            (fun g => (g.id, g.imported_at)) = [(f.id, now)]) ∧
      ((((import_file ready enc now s
            ⟨f.path, nm, some content⟩).1).db.files.map (fun g => g.path)) =
        s.db.files.map (fun g => g.path)) ∧
      ((((import_file ready enc now s
            ⟨f.path, nm, some content⟩).1).db.chunks.filter
          (fun c => c.file_id == f.id)).map
            (fun c => (c.content, c.chunk_index)) =
        indexedFrom 0 (segment_text content)) ∧
      (∀ e ∈ ((import_file ready enc now s
            ⟨f.path, nm, some content⟩).1).db.chunk_embeddings,
        ¬ e.1 ∈ ((s.db.chunks.filter (fun c => c.file_id == f.id)).map
          (fun c => c.id))) ∧
      (∀ c ∈ ((import_file ready enc now s
            ⟨f.path, nm, some content⟩).1).db.chunks,
        c.file_id = f.id → ready = true → ∀ v, enc c.content = some v →
        (c.id, v) ∈ ((import_file ready enc now s
          ⟨f.path, nm, some content⟩).1).db.chunk_embeddings)) ∧
    (∀ (now1 now2 : Nat) (s1 s2 : Store) (c1 c2 : VectorCache)
        (entries : List FileEntry),
      (import_folder ready enc now1 s1 c1 entries).2.2 =
        (import_folder ready enc now2 s2 c2 entries).2.2) ∧
    (∀ (now : Nat) (s : Store) (cache : VectorCache)
        (entries : List FileEntry),
      PathsNodup s →
      PathsNodup (import_folder ready enc now s cache entries).1) := by
  refine ⟨?_, ?_, ?_⟩
  · intro now s f nm content hnd hfresh hf
    rw [import_file_existing ready enc now s f nm content hnd hf]
    refine ⟨?_, ?_, ?_, ?_, ?_⟩
    · -- exactly one row with the path, updated timestamp
      have hfc : (s.db.files.filter ((fun g => g.path == f.path) ∘
          (fun g => if g.id == f.id
            then { g with imported_at := now } else g))) =
          s.db.files.filter (fun g => g.path == f.path) :=
        List.filter_congr (fun g _ => by
          show ((if g.id == f.id then { g with imported_at := now }
            else g).path == f.path) = (g.path == f.path)
          rw [upd_path f g now])
      rw [List.filter_map, hfc, filter_path_eq s.db.files f hnd hf]
      simp
    · have hmap : s.db.files.map ((fun g => g.path) ∘
          (fun g => if g.id == f.id
            then { g with imported_at := now } else g)) =
          s.db.files.map (fun g => g.path) :=
        List.map_congr_left (fun g _ => upd_path f g now)
      rw [List.map_map, hmap]
    · rw [List.filter_append]
      have h1 : ((s.db.chunks.filter (fun c => !(c.file_id == f.id))).filter
          (fun c => c.file_id == f.id)) = [] := by
        rw [List.filter_eq_nil_iff]
        intro c hc
        have := (List.mem_filter.mp hc).2
        simp only [Bool.not_eq_true'] at this
        simp [this]
      have h2 : ((freshChunks f.id s.next_chunk_id 0
          (segment_text content)).filter (fun c => c.file_id == f.id)) =
          freshChunks f.id s.next_chunk_id 0 (segment_text content) := by
        rw [List.filter_eq_self]
        intro c hc
        have := (freshChunks_mem f.id (segment_text content)
          s.next_chunk_id 0 c hc).1
        simp [this]
      rw [h1, h2, List.nil_append]
      exact freshChunks_map_ci f.id (segment_text content) s.next_chunk_id 0
    · intro e he
      rcases List.mem_append.mp he with h1 | h1
      · have hcontains := (List.mem_filter.mp h1).2
        simp only [Bool.not_eq_true'] at hcontains
        intro hmem
        have h4 := List.elem_iff.mpr hmem
        change (List.map (fun c => c.id) (List.filter
          (fun c => c.file_id == f.id) s.db.chunks)).contains e.1 = true at h4
        rw [h4] at hcontains
        simp at hcontains
      · have hkey := freshEmbs_keys ready enc (segment_text content)
          s.next_chunk_id e h1
        intro hmem
        obtain ⟨c, hc, hcid⟩ := List.mem_map.mp hmem
        have hcs := (List.mem_filter.mp hc).1
        have := hfresh c hcs
        omega
    · intro c hc hcf hready v henc
      subst hready
      rcases List.mem_append.mp hc with h1 | h1
      · have := (List.mem_filter.mp h1).2
        simp only [Bool.not_eq_true'] at this
        rw [beq_eq_false_iff_ne] at this
        exact absurd hcf this
      · exact List.mem_append_right _
          (freshChunks_emb enc f.id (segment_text content)
            s.next_chunk_id 0 c v h1 henc)
  · intro now1 now2 s1 s2 c1 c2 entries
    rw [import_folder_result, import_folder_result]
  · intro now s cache entries hnd
    unfold import_folder
    exact import_folder_paths_nodup ready enc entries now (s, ⟨0, 0, 0, 0⟩)
      hnd

/-- C8 witness: a concrete one-file store re-imported keeps one files row
(id 1) with the refreshed timestamp. -/
theorem import_reimport_spec_witness :
    ((((import_file false (fun _ => none) 5
          ⟨⟨[⟨1, ['p'], ['f'], 0⟩], [⟨1, 1, List.replicate 40 'a', 0⟩],
             [(1, [1])]⟩, 2, 2⟩
          ⟨(⟨1, ['p'], ['f'], 0⟩ : FileRow).path, ['f'],
            some (List.replicate 40 'a')⟩).1).db.files.filter
        (fun g => g.path == (⟨1, ['p'], ['f'], 0⟩ : FileRow).path)).map
          (fun g => (g.id, g.imported_at)) = [(1, 5)]) :=
  ((import_reimport_spec false (fun _ => none)).1 5
    ⟨⟨[⟨1, ['p'], ['f'], 0⟩], [⟨1, 1, List.replicate 40 'a', 0⟩],
       [(1, [1])]⟩, 2, 2⟩
    ⟨1, ['p'], ['f'], 0⟩ ['f'] (List.replicate 40 'a')
    (by unfold PathsNodup; decide) (by unfold ChunkIdsFresh; decide)
    (by decide)).1

end LocalLens
